import Mathlib

/-!
Verification of the DocuGen document-generation web application.

The development shallowly embeds the parts of the TypeScript source that the
specification's testable properties speak about:

* the prompt-template placeholder resolver (`replacePromptPlaceholders`,
  client `lib/ai.ts` / the current revision kept at the end of
  `shared/schema.ts`),
* the persistence layer over projects / documents / versions
  (`server/storage.ts`, `DatabaseStorage`), with the database tables modelled
  as in-memory lists inside a `Store` value and each drizzle query translated
  to the corresponding list operation,
* the single-document generation and agent-mode refinement orchestrators
  (`generateProjectDocument`, `agentModeGenerateDocument`; the embedding
  follows the current revision of the module — the copy at the end of
  `shared/schema.ts` with structured output and the try/catch guarded
  refinement loop, whose model identifiers agree with the server's allowed
  list — rather than the stale copy at the top of `lib/ai.ts`),
* the `/api/evaluate` route (`server/routes.ts`).

External effects are made explicit: every network call to the LLM provider is
an oracle parameter returning `Except Unit …` (`.error` models a thrown
exception), and `JSON.parse` — a JavaScript platform primitive, not code of
this repository — is a parameter `String → Option JsValue` (`none` models a
parse exception).
-/

namespace DocuGen

/-! ### JavaScript string primitives

`String.prototype.replace(new RegExp(pat, "g"), repl)` for a pattern without
regular-expression metacharacters (every key the source ever substitutes is
upper-snake made of `[A-Z_]`, wrapped in literal braces): scan the subject
left to right, replace every non-overlapping occurrence of the literal
pattern, and expand JavaScript `$`-sequences inside the replacement string
(`$$`, `$&`, the backquote and quote forms; `$n` / `$<` are literal because
the pattern has no capture groups). -/

/-- Backquote character, written by code to stay clear of source markup. -/
def backquoteChar : Char := Char.ofNat 96

/-- Single-quote character. -/
def singleQuoteChar : Char := Char.ofNat 39

/-- Expansion of a JavaScript replacement string at one match site:
`matched` is the matched text, `before` the part of the subject before the
match, `after` the part behind it. -/
def expandDollar (matched before after : List Char) : List Char → List Char
  | [] => []
  | [c] => [c]
  | c :: c2 :: rest =>
    if c = '$' then
      if c2 = '$' then '$' :: expandDollar matched before after rest
      else if c2 = '&' then matched ++ expandDollar matched before after rest
      else if c2 = backquoteChar then before ++ expandDollar matched before after rest
      else if c2 = singleQuoteChar then after ++ expandDollar matched before after rest
      else c :: expandDollar matched before after (c2 :: rest)
    else c :: expandDollar matched before after (c2 :: rest)

/-- One global-replace scan. `pre` is the already consumed part of the
subject in reverse order; `fuel` bounds the recursion (a positive pattern
consumes at least one character per step, so `s.length` steps suffice). -/
def jsReplaceScan (pat repl : List Char) : List Char → Nat → List Char → List Char
  | _, _, [] => []
  | _, 0, s => s
  | pre, fuel + 1, c :: rest =>
    if pat ≠ [] ∧ pat.isPrefixOf (c :: rest) then
      expandDollar pat pre.reverse ((c :: rest).drop pat.length) repl
        ++ jsReplaceScan pat repl (pat.reverse ++ pre) fuel ((c :: rest).drop pat.length)
    else
      c :: jsReplaceScan pat repl (c :: pre) fuel rest

/-- Model of `subject.replace(new RegExp(pat, "g"), repl)` for a metacharacter-free
pattern. -/
def jsReplaceAll (pat repl subject : String) : String :=
  ⟨jsReplaceScan pat.data repl.data [] (subject.data.length + 1) subject.data⟩

/-- The placeholder token for a key: `\x7b\x7bKEY\x7d\x7d`. -/
def placeholderOf (key : String) : String := "\x7b\x7b" ++ key ++ "\x7d\x7d"

/-- Source `replacePromptPlaceholders` (client ai module): fold the replacement
record in entry order, each step a global replace of the key's placeholder by
its value over the whole intermediate string. JavaScript objects iterate
string keys in insertion order, so a record is a key-value list. -/
def replacePromptPlaceholders (promptTemplate : String)
    (replacements : List (String × String)) : String :=
  replacements.foldl (fun result kv => jsReplaceAll (placeholderOf kv.1) kv.2 result)
    promptTemplate

/-- Modelled from the spec: §4.1 PromptTemplateResolver — "replaces every
literal occurrence of `\x7b\x7bNAME\x7d\x7d` (case-sensitive match on the
supplied keys) with the corresponding value, globally (all occurrences),
leaving unmatched placeholders untouched in the output". A single
simultaneous left-to-right pass: at each position, if the text starts with a
supplied key's placeholder, the key's value is emitted verbatim and the
placeholder skipped; otherwise the character is copied. -/
def resolveSpecScan (entries : List (String × String)) : Nat → List Char → List Char
  | _, [] => []
  | 0, s => s
  | fuel + 1, c :: rest =>
    match entries.find? (fun kv => (placeholderOf kv.1).data.isPrefixOf (c :: rest)) with
    | some kv =>
      kv.2.data ++ resolveSpecScan entries fuel
        ((c :: rest).drop (placeholderOf kv.1).data.length)
    | none => c :: resolveSpecScan entries fuel rest

/-- Modelled from the spec (see `resolveSpecScan`): the resolver the words of
§4.1 describe, to be compared with the source's `replacePromptPlaceholders`. -/
def resolveSpec (promptTemplate : String) (replacements : List (String × String)) :
    String :=
  ⟨resolveSpecScan replacements (promptTemplate.data.length + 1) promptTemplate.data⟩

/-! ### Data model (shared/schema.ts)

Rows of the `projects`, `documents`, `versions` and `templates` tables.
Timestamps (`createdAt` / `updatedAt`) are not modelled: no verified claim
observes them, and every write sets `updatedAt` to the current time. -/

/-- A `projects` row. -/
structure ProjectRec where
  id : Nat
  name : String
  description : String
  deriving Repr, DecidableEq

/-- A `documents` row. -/
structure Doc where
  id : Nat
  projectId : Nat
  type : String
  content : String
  status : String
  deriving Repr, DecidableEq

/-- A `versions` row (the serial id is not observed by any claim). -/
structure VersionRec where
  documentId : Nat
  content : String
  source : String
  deriving Repr, DecidableEq

/-- A `templates` row. -/
structure Template where
  type : String
  prompt : String
  isDefault : Bool
  deriving Repr, DecidableEq

/-- The canonical document-type order (shared/schema.ts `DOCUMENT_TYPES`,
aliased `DOCUMENT_TYPE_ORDER`). -/
def DOCUMENT_TYPE_ORDER : List String :=
  ["project-request", "technical-spec", "prd", "user-flows", "ui-guide",
   "implementation-plan"]

/-- JavaScript `Array.prototype.indexOf`: first index, `-1` when absent. -/
def jsIndexOf (l : List String) (x : String) : Int :=
  match l.findIdx? (fun t => t == x) with
  | some n => (n : Int)
  | none => -1

/-- The sort key of `DatabaseStorage.getDocuments`: the document type's index
in the canonical order. -/
def typeIdx (t : String) : Int := jsIndexOf DOCUMENT_TYPE_ORDER t

/-! ### The store (server/storage.ts, `DatabaseStorage`)

The database is a `Store` value; each drizzle call becomes a list operation.
`nextDocId` models the `serial` primary key of `documents`. -/

/-- In-memory image of the relational store. -/
structure Store where
  projects : List ProjectRec
  documents : List Doc
  versions : List VersionRec
  nextDocId : Nat
  deriving Repr, DecidableEq

/-- The partial update `db.update(documents).set(\x7b...document\x7d)` applies
to one row; the orchestrator only ever patches `content` and `status`. -/
def applyDocPatch (d : Doc) (content? status? : Option String) : Doc :=
  { d with content := content?.getD d.content, status := status?.getD d.status }

/-- Source `DatabaseStorage.createDocument`: insert a fresh row and return it. -/
def createDocument (s : Store) (projectId : Nat) (dtype content status : String) :
    Doc × Store :=
  let d : Doc := ⟨s.nextDocId, projectId, dtype, content, status⟩
  (d, { s with documents := s.documents ++ [d], nextDocId := s.nextDocId + 1 })

/-- Source `DatabaseStorage.updateDocument`: set the patched fields on every row
whose id matches and return the updated row (`undefined`, i.e. `none`, when
no row matched). -/
def updateDocument (s : Store) (id : Nat) (content? status? : Option String) :
    Option Doc × Store :=
  let docs := s.documents.map (fun d => if d.id == id then applyDocPatch d content? status? else d)
  (docs.find? (fun d => d.id == id), { s with documents := docs })

/-- Source `DatabaseStorage.createVersion`: append-only insert. -/
def createVersion (s : Store) (v : VersionRec) : Store :=
  { s with versions := s.versions ++ [v] }

/-- Source `DatabaseStorage.getDocuments`: select the project's documents, then
`result.sort((a, b) => aIndex - bIndex)` — a stable sort ascending on the
canonical type index, which `List.mergeSort` models. -/
def getDocuments (s : Store) (projectId : Nat) : List Doc :=
  (s.documents.filter (fun d => d.projectId == projectId)).mergeSort
    (fun a b => decide (typeIdx a.type ≤ typeIdx b.type))

/-- Primitive deletion statements issued against the database, recorded so
that the deletion order inside a cascade is observable. -/
inductive DelEvent where
  | versionsOf (documentId : Nat)
  | document (id : Nat)
  | project (id : Nat)
  deriving Repr, DecidableEq

/-- Source `DatabaseStorage.deleteDocument`: delete the document's versions, then
the document; always returns `true`. -/
def deleteDocument (s : Store) (id : Nat) : Bool × Store × List DelEvent :=
  let s1 := { s with versions := s.versions.filter (fun v => !(v.documentId == id)) }
  let s2 := { s1 with documents := s1.documents.filter (fun d => !(d.id == id)) }
  (true, s2, [.versionsOf id, .document id])

/-- One pass of `deleteProject`'s loop body: `await this.deleteDocument(doc.id)`
on the accumulated store, appending the emitted deletion events. -/
def deleteFoldStep (a : Store × List DelEvent) (d : Doc) : Store × List DelEvent :=
  let r := deleteDocument a.1 d.id
  (r.2.1, a.2 ++ r.2.2)

/-- Source `DatabaseStorage.deleteProject`: select the project's documents, delete
each (versions first), then delete the project row; always returns `true`. -/
def deleteProject (s : Store) (id : Nat) : Bool × Store × List DelEvent :=
  let projectDocuments := s.documents.filter (fun d => d.projectId == id)
  let step := projectDocuments.foldl deleteFoldStep (s, [])
  (true, { step.1 with projects := step.1.projects.filter (fun p => !(p.id == id)) },
    step.2 ++ [.project id])

/-- The version rows recorded for one document, in insertion order. -/
def versionsFor (s : Store) (docId : Nat) : List VersionRec :=
  s.versions.filter (fun v => v.documentId == docId)

/-- How many refinement snapshots (source `agent-refinement`) a document has:
one per persisted revision cycle of the agent loop. -/
def refCount (s : Store) (docId : Nat) : Nat :=
  (s.versions.filter (fun v => v.documentId == docId && v.source == "agent-refinement")).length

/-- Store sanity: serial ids are unique and below the next free id, and
versions reference allocated ids. Every store reachable from an empty store
through the embedded operations satisfies this. -/
def StoreWF (s : Store) : Prop :=
  (s.documents.map (fun d => d.id)).Nodup ∧
  (∀ d ∈ s.documents, d.id < s.nextDocId) ∧
  (∀ v ∈ s.versions, v.documentId < s.nextDocId)

/-! ### Orchestrator (the current ai module, end of shared/schema.ts) -/

/-- The parsed body of a successful `/api/generate` response as the
structured-output branch of `generateDocumentContent` inspects it: possibly
a `mainContent` field, possibly a `content` field, and `raw` standing for
`JSON.stringify(data)` (the serialisation is a platform primitive, carried
as data). -/
structure GenData where
  mainContent : Option String
  content : Option String
  raw : String
  deriving Repr, DecidableEq

/-- JavaScript truthiness of a possibly-missing string field. -/
def jsTruthy (o : Option String) : Bool :=
  match o with
  | some s => s ≠ ""
  | none => false

/-- Source `generateDocumentContent` with a document type (the structured branch):
use `data.mainContent` if truthy, else `data.content` if truthy, else
`JSON.stringify(data)`; a thrown transport error is re-thrown as the
GenerationError. -/
def generateDocumentContent (api : Except Unit GenData) : Except Unit String :=
  match api with
  | .error e => .error e
  | .ok data =>
    if jsTruthy data.mainContent then .ok (data.mainContent.getD "")
    else if jsTruthy data.content then .ok (data.content.getD "")
    else .ok data.raw

/-- The structured evaluation result the client's `evaluateContent` returns. -/
structure EvalResult where
  score : Int
  feedback : String
  meets_criteria : Bool
  improvement_suggestions : List String
  deriving Repr, DecidableEq

/-- Key derivation `doc.type.toUpperCase()` followed by the global dash-to-underscore
replace: the placeholder key derived from a document type. -/
def typeKey (t : String) : String :=
  ⟨(t.data.map Char.toUpper).map (fun c => if c = '-' then '_' else c)⟩

/-- JavaScript object assignment `r[k] = v`: overwrite in place when the key
exists, else append (entry order is insertion order). -/
def recordSet (r : List (String × String)) (k v : String) : List (String × String) :=
  if r.any (fun kv => kv.1 == k) then
    r.map (fun kv => if kv.1 == k then (k, v) else kv)
  else r ++ [(k, v)]

/-- Source `generateProjectDocument`: resolve the default template, build the
replacement record (`IDEA` first, then one key per prior document), resolve
the prompt, call the generation capability, then persist — versioning the
previous content when a document of that type already exists, creating the
document otherwise. `tplO` is the `getDefaultTemplate` outcome and `api` the
generation call's outcome; failures short-circuit before any persistence. -/
def generateProjectDocument (tplO : Except Unit Template) (api : Except Unit GenData)
    (project : ProjectRec) (documentType : String) (existingDocuments : List Doc)
    (s : Store) : Except Unit Doc × Store :=
  match tplO with
  | .error e => (.error e, s)
  | .ok template =>
    let replacements := existingDocuments.foldl
      (fun acc doc => recordSet acc (typeKey doc.type) doc.content)
      [("IDEA", project.description)]
    let _prompt := replacePromptPlaceholders template.prompt replacements
    match generateDocumentContent api with
    | .error e => (.error e, s)
    | .ok content =>
      match existingDocuments.find? (fun doc => doc.type == documentType) with
      | some existingDoc =>
        let s1 := createVersion s ⟨existingDoc.id, existingDoc.content, "ai-generator"⟩
        match updateDocument s1 existingDoc.id (some content) (some "draft") with
        | (some d, s2) => (.ok d, s2)
        | (none, s2) => (.error (), s2)
      | none =>
        let r := createDocument s project.id documentType content "draft"
        (.ok r.1, r.2)

/-- The per-type evaluation rubrics (`EVALUATION_CRITERIA`). -/
def EVALUATION_CRITERIA : List (String × String) :=
  [("project-request", "\n    Evaluate this Project Request document on these criteria:\n    1. Clarity of project description\n    2. Completeness of scope definition\n    3. Clear identification of target audience\n    4. Well-defined goals and objectives\n    5. Appropriate level of detail for initial requirements\n  "),
   ("technical-spec", "\n    Evaluate this Technical Specification document on these criteria:\n    1. Clear system architecture description\n    2. Comprehensive data model definition\n    3. Detailed API endpoints and interfaces\n    4. Appropriate error handling considerations\n    5. Technical feasibility assessment\n    6. Inclusion of relevant code snippets or pseudocode\n  "),
   ("prd", "\n    Evaluate this Product Requirements Document on these criteria:\n    1. Clear product vision and objectives\n    2. Well-defined user stories or jobs-to-be-done\n    3. Comprehensive feature requirements\n    4. Detailed functional specifications\n    5. Clear success metrics and acceptance criteria\n    6. Prioritization of requirements\n  "),
   ("user-flows", "\n    Evaluate this User Flows document on these criteria:\n    1. Clear identification of key user journeys\n    2. Step-by-step flow descriptions\n    3. Inclusion of diagrams (Mermaid or otherwise)\n    4. Coverage of edge cases and alternate paths\n    5. User-centric perspective\n  "),
   ("ui-guide", "\n    Evaluate this UI Style Guide document on these criteria:\n    1. Comprehensive color palette definition\n    2. Clear typography guidelines\n    3. Component styling patterns and rules\n    4. Layout principles and guidelines\n    5. Consistency across elements\n    6. Accessibility considerations\n  "),
   ("implementation-plan", "\n    Evaluate this Implementation Plan document on these criteria:\n    1. Clear breakdown of tasks and subtasks\n    2. Logical sequencing of development steps\n    3. Realistic timeline estimates\n    4. Resource allocation and requirements\n    5. Risk identification and mitigation strategies\n    6. Testing and deployment considerations\n  ")]

/-- The global dash-to-space replace applied to `documentType` in the
improvement prompt. -/
def dashToSpace (t : String) : String :=
  ⟨t.data.map (fun c => if c = '-' then ' ' else c)⟩

/-- The improvement prompt the refinement loop builds: ordinal position in
the canonical order, readable type name, the evaluation's feedback and
suggestions, and the current content verbatim. -/
def improvementPrompt (documentType : String) (evaluation : EvalResult)
    (content : String) : String :=
  "\n      Please improve the following " ++
    toString (jsIndexOf DOCUMENT_TYPE_ORDER documentType + 1) ++ ". " ++
    dashToSpace documentType ++ " based on this feedback:\n      \n      " ++
    evaluation.feedback ++ "\n      \n      Suggested improvements:\n      " ++
    String.intercalate "\n" evaluation.improvement_suggestions ++
    "\n      \n      Current content:\n      " ++ content ++
    "\n      \n      Please provide a complete, revised version addressing the feedback.\n    "

/-- The refinement loop body of `agentModeGenerateDocument` (current
revision, end of shared/schema.ts): at most `remaining` more iterations,
`i` the loop counter. Each iteration is wrapped in try/catch — an exception
from the evaluation call, the generation call, or the persistence calls
breaks the loop, keeping the last successfully persisted document. `evalO`
and `genO` are the external call outcomes, indexed by call number and
applied to the arguments the code passes. -/
def refineLoop (evalO : Nat → String → String → Except Unit EvalResult)
    (genO : Nat → String → Except Unit String) (documentType criteria : String) :
    Nat → Nat → Doc → Store → Doc × Store
  | _, 0, doc, s => (doc, s)
  | i, remaining + 1, doc, s =>
    match evalO i doc.content criteria with
    | .error _ => (doc, s)
    | .ok evaluation =>
      if evaluation.meets_criteria then (doc, s)
      else
        match genO i (improvementPrompt documentType evaluation doc.content) with
        | .error _ => (doc, s)
        | .ok improvedContent =>
          let s1 := createVersion s ⟨doc.id, doc.content, "agent-refinement"⟩
          match updateDocument s1 doc.id (some improvedContent) (some "draft") with
          | (some d2, s2) =>
            refineLoop evalO genO documentType criteria (i + 1) remaining d2 s2
          | (none, s2) => (doc, s2)

/-- The rubric for a document type: `EVALUATION_CRITERIA[documentType]` with
the generic fallback when the lookup misses. -/
def criteriaFor (documentType : String) : String :=
  ((EVALUATION_CRITERIA.find? (fun kv => kv.1 == documentType)).map (fun kv => kv.2)).getD
    "Evaluate for completeness, clarity, and usefulness."

/-- Source `agentModeGenerateDocument`: initial generation, then the bounded
refinement loop, then the unconditional final update to status
`completed`. -/
def agentModeGenerateDocument (tplO : Except Unit Template) (api : Except Unit GenData)
    (evalO : Nat → String → String → Except Unit EvalResult)
    (genO : Nat → String → Except Unit String)
    (project : ProjectRec) (documentType : String) (existingDocuments : List Doc)
    (maxIterations : Nat) (s : Store) : Except Unit Doc × Store :=
  match generateProjectDocument tplO api project documentType existingDocuments s with
  | (.error e, s1) => (.error e, s1)
  | (.ok document, s1) =>
    let criteria := criteriaFor documentType
    let r := refineLoop evalO genO documentType criteria 0 maxIterations document s1
    match updateDocument r.2 r.1.id none (some "completed") with
    | (some d, s3) => (.ok d, s3)
    | (none, s3) => (.error (), s3)

/-! ### The §4.4 composite upsert

`upsertDocumentContent` as spec §4.4 names it: the persistence steps of
`generateProjectDocument` with `existingDocuments` equal to the store's
current documents (which is how the whole-project driver calls it, re-reading
all documents before each step): snapshot the previous content as a version,
then overwrite — or create the document when none exists. -/

/-- Does a document row realise the (project, type) pair? -/
def matchesPT (p : Nat) (t : String) (d : Doc) : Bool :=
  d.projectId == p && d.type == t

/-- One content upsert on a (project, type) pair. -/
def upsertDocumentContent (s : Store) (p : Nat) (t content source : String) :
    Except Unit Doc × Store :=
  match s.documents.find? (matchesPT p t) with
  | some existingDoc =>
    let s1 := createVersion s ⟨existingDoc.id, existingDoc.content, source⟩
    match updateDocument s1 existingDoc.id (some content) (some "draft") with
    | (some d, s2) => (.ok d, s2)
    | (none, s2) => (.error (), s2)
  | none =>
    let r := createDocument s p t content "draft"
    (.ok r.1, r.2)

/-- A sequence of content upserts on a fixed (project, type) pair; each
operation is a (content, source) pair. -/
def runUpserts (p : Nat) (t : String) (ops : List (String × String)) (s : Store) :
    Store :=
  ops.foldl (fun st cs => (upsertDocumentContent st p t cs.1 cs.2).2) s

/-- The version rows a sequence of overwrites must leave behind: the first
overwrite snapshots `prev`, each later one snapshots the previous
operation's content, each tagged with its own operation's source. -/
def snapshots (docId : Nat) (prev : String) : List (String × String) → List VersionRec
  | [] => []
  | (c, src) :: rest => ⟨docId, prev, src⟩ :: snapshots docId c rest

/-! ### The /api/evaluate route (server/routes.ts) -/

/-- A JavaScript value as `res.json` serialises it; `JSON.parse` results live
here too. -/
inductive JsValue where
  | str (s : String)
  | num (n : Int)
  | bool (b : Bool)
  | null
  | arr (elems : List JsValue)
  | obj (fields : List (String × JsValue))

/-- The evaluation prompt the route builds around the caller's content and
criteria. -/
def evaluationPromptOf (content criteria : String) : String :=
  "\n        Evaluate the following content based on these criteria:\n        " ++
    criteria ++ "\n        \n        Content to evaluate:\n        " ++ content ++
    "\n        \n        Provide your evaluation as a JSON object with the following structure:\n        \x7b\n          \"score\": [0-10 numerical score],\n          \"feedback\": \"Detailed feedback about the content\",\n          \"meets_criteria\": true/false,\n          \"improvement_suggestions\": [\"Suggestion 1\", \"Suggestion 2\"]\n        \x7d\n      "

/-- The degrade result synthesised when the provider's reply is not JSON. -/
def degradeResult (text : String) : JsValue :=
  .obj [("score", .num 5), ("feedback", .str text), ("meets_criteria", .bool false),
        ("improvement_suggestions",
         .arr [.str "Could not parse structured evaluation. Please check the raw feedback."])]

/-- The `POST /api/evaluate` handler: status code and JSON body. `parseJson`
stands for the platform's `JSON.parse` (`none` = parse exception), `provider`
for the Gemini call on the built prompt (`.error` = the call threw). -/
def apiEvaluate (parseJson : String → Option JsValue)
    (provider : String → Except Unit String) (apiKey content criteria : String) :
    Nat × JsValue :=
  if content == "" || criteria == "" then
    (400, .obj [("error", .str "Content and criteria are required")])
  else if apiKey == "" then
    (500, .obj [("error", .str "Gemini API key not found")])
  else
    match provider (evaluationPromptOf content criteria) with
    | .error _ => (500, .obj [("error", .str "Failed to evaluate content")])
    | .ok text =>
      match parseJson text with
      | some evaluation => (200, evaluation)
      | none => (200, degradeResult text)

/-- The text a successful structured generation call yields (the value
`generateDocumentContent` extracts from the parsed response). -/
def genContentOf (gd : GenData) : String :=
  if jsTruthy gd.mainContent then gd.mainContent.getD ""
  else if jsTruthy gd.content then gd.content.getD ""
  else gd.raw

theorem generateDocumentContent_ok (gd : GenData) :
    generateDocumentContent (.ok gd) = .ok (genContentOf gd) := by
  simp only [generateDocumentContent, genContentOf]
  split
  · rfl
  · split <;> rfl

/-! ### Claim C4 — template substitution -/

/-- Claim C4, counterexample: the source resolver applies the supplied keys
one at a time over the whole intermediate string, so a replacement value that
itself contains a later key's placeholder is substituted again — it does not
perform the simultaneous value-verbatim substitution the claim states
(`resolveSpec`). With the mapping `A ↦ \x7b\x7bB\x7d\x7d, B ↦ x`, the claim
requires `\x7b\x7bA\x7d\x7d` to resolve to `\x7b\x7bB\x7d\x7d`; the code
yields `x`. -/
theorem replacePromptPlaceholders_not_simultaneous :
    replacePromptPlaceholders "\x7b\x7bA\x7d\x7d" [("A", "\x7b\x7bB\x7d\x7d"), ("B", "x")]
        = "x" ∧
    resolveSpec "\x7b\x7bA\x7d\x7d" [("A", "\x7b\x7bB\x7d\x7d"), ("B", "x")]
        = "\x7b\x7bB\x7d\x7d" ∧
    replacePromptPlaceholders "\x7b\x7bA\x7d\x7d" [("A", "\x7b\x7bB\x7d\x7d"), ("B", "x")]
        ≠ resolveSpec "\x7b\x7bA\x7d\x7d" [("A", "\x7b\x7bB\x7d\x7d"), ("B", "x")] := by
  refine ⟨by decide, by decide, by decide⟩

/-- A placeholder token is never the empty string. -/
theorem placeholderOf_data_ne_nil (k : String) : (placeholderOf k).data ≠ [] := by
  simp [placeholderOf, String.data_append]

/-- A replacement string without a dollar character expands to itself. -/
theorem expandDollar_of_no_dollar (m b a : List Char) :
    ∀ repl : List Char, '$' ∉ repl → expandDollar m b a repl = repl := by
  intro repl
  induction repl with
  | nil => intro _; rfl
  | cons c rest ih =>
    intro h
    have hc : ¬(c = '$') := fun hh => h (hh ▸ List.mem_cons_self c rest)
    have ht : '$' ∉ rest := fun hh => h (List.mem_cons_of_mem c hh)
    cases rest with
    | nil => rfl
    | cons c2 rest2 =>
      rw [expandDollar, if_neg hc]
      exact congrArg (c :: ·) (ih ht)

/-- With a single supplied key and a dollar-free value, the global-replace
scan coincides step for step with the simultaneous scan the spec describes:
both walk the subject left to right, replace each non-overlapping occurrence
of the placeholder by the value verbatim, and never rescan inserted text. -/
theorem jsReplaceScan_eq_resolveSpecScan (k v : String) (hv : '$' ∉ v.data) :
    ∀ (fuel : Nat) (pre s : List Char),
      jsReplaceScan (placeholderOf k).data v.data pre fuel s
        = resolveSpecScan [(k, v)] fuel s := by
  intro fuel
  induction fuel with
  | zero => intro pre s; cases s <;> rfl
  | succ fuel ih =>
    intro pre s
    cases s with
    | nil => rfl
    | cons c rest =>
      by_cases hp : ((placeholderOf k).data.isPrefixOf (c :: rest)) = true
      · have hfind : List.find?
            (fun kv => (placeholderOf kv.1).data.isPrefixOf (c :: rest)) [(k, v)]
              = some (k, v) := List.find?_cons_of_pos _ hp
        have hrhs : resolveSpecScan [(k, v)] (fuel + 1) (c :: rest)
            = v.data ++ resolveSpecScan [(k, v)] fuel
                ((c :: rest).drop (placeholderOf k).data.length) := by
          rw [resolveSpecScan, hfind]
        rw [hrhs, jsReplaceScan, if_pos ⟨placeholderOf_data_ne_nil k, hp⟩,
          expandDollar_of_no_dollar _ _ _ _ hv]
        exact congrArg (v.data ++ ·) (ih _ _)
      · have hfind : List.find?
            (fun kv => (placeholderOf kv.1).data.isPrefixOf (c :: rest)) [(k, v)]
              = none := by
          rw [List.find?_cons_of_neg _ (by simpa using hp)]
          rfl
        have hrhs : resolveSpecScan [(k, v)] (fuel + 1) (c :: rest)
            = c :: resolveSpecScan [(k, v)] fuel rest := by
          rw [resolveSpecScan, hfind]
        rw [hrhs, jsReplaceScan, if_neg (fun hand => hp hand.2)]
        exact congrArg (c :: ·) (ih _ _)

/-- Claim C4, amended: the resolver replaces the supplied keys sequentially
in entry order (each step a global replace over the whole current string), so
supplied keys interact — a replacement value containing, or splicing together
with adjacent text into, a later key's placeholder is substituted again, as
the `A ↦ \x7b\x7bB\x7d\x7d` counterexample and the boundary instance
`\x7b\x7b\x7bX\x7d\x7dY\x7d\x7d` here show. With no supplied keys the
template is returned verbatim, and for every template and single supplied key
whose value has no dollar character the claimed behavior holds exactly
(agreement with `resolveSpec`): every occurrence of that key's placeholder is
replaced by the value, globally and case-sensitively, all other text —
including placeholders of unsupplied names — passing through untouched, with
no error; in particular both spec examples hold. -/
theorem replacePromptPlaceholders_amended :
    (∀ tmpl : String, replacePromptPlaceholders tmpl [] = tmpl) ∧
    (∀ tmpl k v : String, '$' ∉ v.data →
      replacePromptPlaceholders tmpl [(k, v)] = resolveSpec tmpl [(k, v)]) ∧
    replacePromptPlaceholders "Hello \x7b\x7bIDEA\x7d\x7d and \x7b\x7bIDEA\x7d\x7d"
        [("IDEA", "X")] = "Hello X and X" ∧
    replacePromptPlaceholders "Hello \x7b\x7bMISSING\x7d\x7d" []
        = "Hello \x7b\x7bMISSING\x7d\x7d" ∧
    replacePromptPlaceholders "Hello \x7b\x7bMISSING\x7d\x7d" [("IDEA", "X")]
        = "Hello \x7b\x7bMISSING\x7d\x7d" ∧
    replacePromptPlaceholders "\x7b\x7b\x7bX\x7d\x7dY\x7d\x7d"
        [("X", "\x7b"), ("Y", "v")] = "v" ∧
    resolveSpec "\x7b\x7b\x7bX\x7d\x7dY\x7d\x7d" [("X", "\x7b"), ("Y", "v")]
        = "\x7b\x7bY\x7d\x7d" := by
  refine ⟨fun tmpl => rfl, ?_, by decide, by decide, by decide, by decide, by decide⟩
  intro tmpl k v hv
  exact congrArg String.mk
    (jsReplaceScan_eq_resolveSpecScan k v hv (tmpl.data.length + 1) [] tmpl.data)

/-- Witness for the amended C4, discharging the dollar-freeness hypothesis at
the first spec example. -/
theorem replacePromptPlaceholders_amended_witness :
    replacePromptPlaceholders "Hello \x7b\x7bIDEA\x7d\x7d and \x7b\x7bIDEA\x7d\x7d"
        [("IDEA", "X")]
      = resolveSpec "Hello \x7b\x7bIDEA\x7d\x7d and \x7b\x7bIDEA\x7d\x7d"
          [("IDEA", "X")] :=
  replacePromptPlaceholders_amended.2.1
    "Hello \x7b\x7bIDEA\x7d\x7d and \x7b\x7bIDEA\x7d\x7d" "IDEA" "X" (by decide)

/-! ### Claims C5 and C9 — the /api/evaluate route -/

/-- Claim C5: when the provider call succeeds but its reply is not parseable
JSON, the route answers 200 with the synthesized degrade result — score 5,
the raw reply as feedback, `meets_criteria` false, one parse-failure
suggestion — and a 500 error arises only when the provider call itself
throws. -/
theorem apiEvaluate_degrades_on_unparseable
    (parseJson : String → Option JsValue) (provider : String → Except Unit String)
    (apiKey content criteria text : String)
    (hc : content ≠ "") (hcr : criteria ≠ "") (hk : apiKey ≠ "")
    (hprov : provider (evaluationPromptOf content criteria) = .ok text)
    (hparse : parseJson text = none) :
    apiEvaluate parseJson provider apiKey content criteria = (200, degradeResult text) ∧
    apiEvaluate parseJson (fun _ => .error ()) apiKey content criteria
      = (500, .obj [("error", .str "Failed to evaluate content")]) := by
  constructor <;>
    simp [apiEvaluate, hprov, hparse, beq_eq_false_iff_ne, hc, hcr, hk]

/-- Witness for C5 at the spec's example reply. -/
theorem apiEvaluate_degrades_on_unparseable_witness :
    apiEvaluate (fun _ => none) (fun _ => .ok "looks good") "key" "some content"
        "some criteria" = (200, degradeResult "looks good") ∧
    apiEvaluate (fun _ => none) (fun _ => .error ()) "key" "some content"
        "some criteria" = (500, .obj [("error", .str "Failed to evaluate content")]) :=
  apiEvaluate_degrades_on_unparseable (fun _ => none) (fun _ => .ok "looks good")
    "key" "some content" "some criteria" "looks good"
    (by decide) (by decide) (by decide) rfl rfl

/-- Claim C9: when the provider reply does parse as JSON, the route returns
the parsed value verbatim with status 200 and no shape validation — the
value is arbitrary (it may lack every expected field or carry any score);
the degrade result is reserved for parse failure. -/
theorem apiEvaluate_returns_parsed_verbatim
    (parseJson : String → Option JsValue) (provider : String → Except Unit String)
    (apiKey content criteria text : String) (v : JsValue)
    (hc : content ≠ "") (hcr : criteria ≠ "") (hk : apiKey ≠ "")
    (hprov : provider (evaluationPromptOf content criteria) = .ok text)
    (hparse : parseJson text = some v) :
    apiEvaluate parseJson provider apiKey content criteria = (200, v) := by
  simp [apiEvaluate, hprov, hparse, beq_eq_false_iff_ne, hc, hcr, hk]

/-- Witness for C9: a parsed object that lacks `feedback`, `meets_criteria`
and `improvement_suggestions` and carries a score outside 0–10 is returned
untouched. -/
theorem apiEvaluate_returns_parsed_verbatim_witness :
    apiEvaluate (fun _ => some (.obj [("score", .num 99)])) (fun _ => .ok "\x7b...\x7d")
        "key" "some content" "some criteria" = (200, .obj [("score", .num 99)]) :=
  apiEvaluate_returns_parsed_verbatim (fun _ => some (.obj [("score", .num 99)]))
    (fun _ => .ok "\x7b...\x7d") "key" "some content" "some criteria" "\x7b...\x7d"
    (.obj [("score", .num 99)]) (by decide) (by decide) (by decide) rfl rfl

/-! ### Claim C8 — single-generation failure is a hard failure -/

/-- Claim C8: when the generation call of single-document generation throws,
`generateProjectDocument` re-raises the failure and returns the store
exactly as it was — persistence only happens after a successful generation
call, so no document or version is created or modified and prior content is
untouched. -/
theorem generateProjectDocument_failure_leaves_store (tpl : Template)
    (project : ProjectRec) (documentType : String) (existingDocuments : List Doc)
    (s : Store) :
    generateProjectDocument (.ok tpl) (.error ()) project documentType
        existingDocuments s = (.error (), s) := rfl

/-! ### Claim C10 — deletion semantics -/

/-- Folding `deleteDocument` over a document list removes exactly the rows
whose ids occur in the list (and their versions) and concatenates the
deletion events in list order. -/
theorem deleteDocument_foldl (L : List Doc) : ∀ (s : Store) (acc : List DelEvent),
    L.foldl deleteFoldStep (s, acc)
      = ({ s with
            documents := s.documents.filter
              (fun d => !((L.map (fun x => x.id)).contains d.id)),
            versions := s.versions.filter
              (fun v => !((L.map (fun x => x.id)).contains v.documentId)) },
         acc ++ (L.map (fun d => [DelEvent.versionsOf d.id, DelEvent.document d.id])).flatten) := by
  induction L with
  | nil => intro s acc; simp
  | cons d tl ih =>
    intro s acc
    have hstep : deleteFoldStep (s, acc) d
        = ({ s with
              documents := s.documents.filter (fun x => !(x.id == d.id)),
              versions := s.versions.filter (fun v => !(v.documentId == d.id)) },
           acc ++ [DelEvent.versionsOf d.id, DelEvent.document d.id]) := rfl
    rw [List.foldl_cons, hstep, ih]
    have hdoc : (s.documents.filter (fun x => !(x.id == d.id))).filter
          (fun x => !((tl.map (fun y => y.id)).contains x.id))
        = s.documents.filter
          (fun x => !((((d :: tl).map (fun y => y.id))).contains x.id)) := by
      refine (List.filter_filter _ _).trans (List.filter_congr ?_)
      intro x _
      simp only [List.map_cons, List.contains_cons, Bool.not_or]
      exact Bool.and_comm _ _
    have hver : (s.versions.filter (fun v => !(v.documentId == d.id))).filter
          (fun v => !((tl.map (fun y => y.id)).contains v.documentId))
        = s.versions.filter
          (fun v => !((((d :: tl).map (fun y => y.id))).contains v.documentId)) := by
      refine (List.filter_filter _ _).trans (List.filter_congr ?_)
      intro x _
      simp only [List.map_cons, List.contains_cons, Bool.not_or]
      exact Bool.and_comm _ _
    rw [hdoc, hver]
    simp

/-- Closed form of `deleteProject`: always `true`, the cascade removes the
project's documents together with their versions and the project row, and
the deletion statements run as — for each document in select order, its
versions then the document — with the project row deleted last. -/
theorem deleteProject_eq (s : Store) (id : Nat) :
    deleteProject s id =
      (true,
       { s with
         documents := s.documents.filter
           (fun d => !(((s.documents.filter (fun x => x.projectId == id)).map
              (fun x => x.id)).contains d.id)),
         versions := s.versions.filter
           (fun v => !(((s.documents.filter (fun x => x.projectId == id)).map
              (fun x => x.id)).contains v.documentId)),
         projects := s.projects.filter (fun p => !(p.id == id)) },
       ((s.documents.filter (fun x => x.projectId == id)).map
          (fun d => [DelEvent.versionsOf d.id, DelEvent.document d.id])).flatten
         ++ [DelEvent.project id]) := by
  simp only [deleteProject, deleteDocument_foldl, List.nil_append]

/-- After the cascade, no document of the project remains. -/
theorem deleteProject_docs_gone (s : Store) (id : Nat) :
    (deleteProject s id).2.1.documents.filter (fun d => d.projectId == id) = [] := by
  rw [deleteProject_eq]
  simp only
  rw [List.filter_filter]
  refine List.filter_eq_nil_iff.mpr ?_
  intro a ha h
  rw [Bool.and_eq_true, Bool.not_eq_true'] at h
  have hmem : a ∈ s.documents.filter (fun x => x.projectId == id) :=
    List.mem_filter.mpr ⟨ha, h.1⟩
  have hid : a.id ∈ (s.documents.filter (fun x => x.projectId == id)).map
      (fun x => x.id) := List.mem_map_of_mem _ hmem
  have hc : ((s.documents.filter (fun x => x.projectId == id)).map
      (fun x => x.id)).contains a.id = true := List.elem_iff.mpr hid
  rw [h.2] at hc
  exact Bool.false_ne_true hc

/-- Deleting a project twice gives the same store as deleting it once. -/
theorem deleteProject_idem (s : Store) (id : Nat) :
    (deleteProject (deleteProject s id).2.1 id).2.1 = (deleteProject s id).2.1 := by
  have hgone := deleteProject_docs_gone s id
  rw [deleteProject_eq ((deleteProject s id).2.1) id]
  simp only [hgone, List.map_nil]
  rw [deleteProject_eq s id]
  simp [List.contains, List.elem_nil, List.filter_filter]

/-- After the cascade, no version of any of the project's documents remains. -/
theorem deleteProject_versions_gone (s : Store) (id : Nat) :
    (deleteProject s id).2.1.versions.filter
      (fun v => (s.documents.filter (fun d => d.projectId == id)).any
          (fun d => d.id == v.documentId)) = [] := by
  rw [deleteProject_eq]
  simp only
  rw [List.filter_filter]
  refine List.filter_eq_nil_iff.mpr ?_
  intro v _ h
  rw [Bool.and_eq_true, Bool.not_eq_true'] at h
  obtain ⟨d, hd, hdv⟩ := List.any_eq_true.mp h.1
  have hid : v.documentId ∈ (s.documents.filter (fun x => x.projectId == id)).map
      (fun x => x.id) := by
    have : d.id = v.documentId := by
      have := (beq_iff_eq (a := d.id) (b := v.documentId)).mp hdv
      exact this
    exact this ▸ List.mem_map_of_mem _ hd
  have hc : ((s.documents.filter (fun x => x.projectId == id)).map
      (fun x => x.id)).contains v.documentId = true := List.elem_iff.mpr hid
  rw [h.2] at hc
  exact Bool.false_ne_true hc

/-- After the cascade, the project row itself is gone. -/
theorem deleteProject_project_gone (s : Store) (id : Nat) :
    (deleteProject s id).2.1.projects.filter (fun p => p.id == id) = [] := by
  rw [deleteProject_eq]
  simp only
  rw [List.filter_filter]
  refine List.filter_eq_nil_iff.mpr ?_
  intro p _ h
  rw [Bool.and_eq_true, Bool.not_eq_true'] at h
  rw [h.2] at h
  exact Bool.false_ne_true h.1

/-- Deleting a document twice gives the same store as deleting it once. -/
theorem deleteDocument_idem (s : Store) (id : Nat) :
    (deleteDocument (deleteDocument s id).2.1 id).2.1 = (deleteDocument s id).2.1 := by
  simp [deleteDocument, List.filter_filter]

/-- Claim C10: deletion of a project or a document returns `true` even when
nothing with that id exists and is idempotent on the store; the project
cascade leaves no document of the project, no version of any of its
documents, and no project row with the id; and the deletion statements run —
for each of the project's documents in select order — versions before the
document, with the project row deleted last. -/
theorem deletion_total_idempotent_cascade (s : Store) (id : Nat) :
    (deleteProject s id).1 = true ∧
    (deleteDocument s id).1 = true ∧
    (deleteProject (deleteProject s id).2.1 id).2.1 = (deleteProject s id).2.1 ∧
    (deleteDocument (deleteDocument s id).2.1 id).2.1 = (deleteDocument s id).2.1 ∧
    (deleteProject s id).2.1.documents.filter (fun d => d.projectId == id) = [] ∧
    (deleteProject s id).2.1.versions.filter
      (fun v => (s.documents.filter (fun d => d.projectId == id)).any
          (fun d => d.id == v.documentId)) = [] ∧
    (deleteProject s id).2.1.projects.filter (fun p => p.id == id) = [] ∧
    (deleteProject s id).2.2 =
      ((s.documents.filter (fun d => d.projectId == id)).map
        (fun d => [DelEvent.versionsOf d.id, DelEvent.document d.id])).flatten
        ++ [DelEvent.project id] := by
  refine ⟨rfl, rfl, deleteProject_idem s id, deleteDocument_idem s id,
    deleteProject_docs_gone s id, deleteProject_versions_gone s id,
    deleteProject_project_gone s id, ?_⟩
  rw [deleteProject_eq]

/-! ### Claim C6 — canonical listing order -/

/-- Strict canonical order on document rows. -/
def docLt (a b : Doc) : Prop := typeIdx a.type < typeIdx b.type

/-- The canonical type index separates the six canonical types. -/
theorem typeIdx_injOn : ∀ t1 ∈ DOCUMENT_TYPE_ORDER, ∀ t2 ∈ DOCUMENT_TYPE_ORDER,
    typeIdx t1 = typeIdx t2 → t1 = t2 := by
  intro t1 h1 t2 h2
  simp only [DOCUMENT_TYPE_ORDER, List.mem_cons, List.not_mem_nil, or_false] at h1 h2
  rcases h1 with rfl | rfl | rfl | rfl | rfl | rfl <;>
    rcases h2 with rfl | rfl | rfl | rfl | rfl | rfl <;> decide

/-- The listing is a permutation of the project's rows (merge sort permutes). -/
theorem getDocuments_perm (s : Store) (pid : Nat) :
    (getDocuments s pid).Perm (s.documents.filter (fun d => d.projectId == pid)) :=
  List.mergeSort_perm _ _

/-- The listing is sorted by the canonical type index. -/
theorem getDocuments_sorted (s : Store) (pid : Nat) :
    (getDocuments s pid).Pairwise (fun a b => typeIdx a.type ≤ typeIdx b.type) := by
  have h := @List.sorted_mergeSort Doc
    (fun a b => decide (typeIdx a.type ≤ typeIdx b.type))
    (fun a b c hab hbc =>
      decide_eq_true (le_trans (of_decide_eq_true hab) (of_decide_eq_true hbc)))
    (fun a b => by
      rcases le_total (typeIdx a.type) (typeIdx b.type) with hle | hle <;> simp [hle])
    (s.documents.filter (fun d => d.projectId == pid))
  exact h.imp (fun hab => of_decide_eq_true hab)

/-- A canonically valid, type-distinct listing is strictly sorted. -/
theorem sorted_strict_of_valid (l : List Doc)
    (hsort : l.Pairwise (fun a b => typeIdx a.type ≤ typeIdx b.type))
    (hvalid : ∀ d ∈ l, d.type ∈ DOCUMENT_TYPE_ORDER)
    (hnd : (l.map (fun d => d.type)).Nodup) : l.Pairwise docLt := by
  have hne : l.Pairwise (fun a b => a.type ≠ b.type) := List.pairwise_map.mp hnd
  refine (hsort.and hne).imp_of_mem ?_
  intro a b ha hb hab
  exact lt_of_le_of_ne hab.1
    (fun he => hab.2 (typeIdx_injOn a.type (hvalid a ha) b.type (hvalid b hb) he))

/-- Two strictly sorted permutations of each other coincide. -/
theorem eq_of_perm_of_strict_sorted {l1 l2 : List Doc} (hp : l1.Perm l2)
    (h1 : l1.Pairwise docLt) (h2 : l2.Pairwise docLt) : l1 = l2 := by
  haveI : IsAntisymm Doc docLt :=
    ⟨fun a b hab hba => absurd (lt_trans hab hba) (lt_irrefl _)⟩
  exact List.eq_of_perm_of_sorted hp h1 h2

/-- Claim C6: `getDocuments` returns the project's documents sorted by the
canonical DocumentType order: the output is a permutation of the project's
rows, it is sorted on the canonical type index, and — under the store
invariant that the project has at most one document per type, each of a
canonical type — the output does not depend on the row order of the
underlying table (insertion or update order). -/
theorem getDocuments_canonical_order (s : Store) (pid : Nat) :
    (getDocuments s pid).Perm (s.documents.filter (fun d => d.projectId == pid)) ∧
    (getDocuments s pid).Pairwise (fun a b => typeIdx a.type ≤ typeIdx b.type) ∧
    (∀ s2 : Store,
      (s2.documents.filter (fun d => d.projectId == pid)).Perm
        (s.documents.filter (fun d => d.projectId == pid)) →
      (∀ d ∈ s.documents.filter (fun d => d.projectId == pid),
        d.type ∈ DOCUMENT_TYPE_ORDER) →
      ((s.documents.filter (fun d => d.projectId == pid)).map (fun d => d.type)).Nodup →
      getDocuments s2 pid = getDocuments s pid) := by
  refine ⟨getDocuments_perm s pid, getDocuments_sorted s pid, ?_⟩
  intro s2 hperm hvalid hnd
  have hperm1 : (getDocuments s2 pid).Perm (getDocuments s pid) :=
    ((getDocuments_perm s2 pid).trans hperm).trans (getDocuments_perm s pid).symm
  have htypes : ((getDocuments s pid).map (fun d => d.type)).Nodup :=
    (((getDocuments_perm s pid).map (fun d => d.type)).nodup_iff).mpr hnd
  have htypes2 : ((getDocuments s2 pid).map (fun d => d.type)).Nodup :=
    ((hperm1.map (fun d => d.type)).nodup_iff).mpr htypes
  have hvalid1 : ∀ d ∈ getDocuments s pid, d.type ∈ DOCUMENT_TYPE_ORDER :=
    fun d hd => hvalid d ((getDocuments_perm s pid).mem_iff.mp hd)
  have hvalid2 : ∀ d ∈ getDocuments s2 pid, d.type ∈ DOCUMENT_TYPE_ORDER :=
    fun d hd => hvalid1 d (hperm1.mem_iff.mp hd)
  exact eq_of_perm_of_strict_sorted hperm1
    (sorted_strict_of_valid _ (getDocuments_sorted s2 pid) hvalid2 htypes2)
    (sorted_strict_of_valid _ (getDocuments_sorted s pid) hvalid1 htypes)

/-- Witness for C6: two stores holding the same three documents of project 7
in different table orders list them identically, in canonical order. -/
theorem getDocuments_canonical_order_witness :
    getDocuments
      ⟨[], [⟨2, 7, "prd", "b", "draft"⟩, ⟨3, 8, "prd", "c", "draft"⟩,
            ⟨1, 7, "project-request", "a", "draft"⟩], [], 4⟩ 7
      = getDocuments
      ⟨[], [⟨1, 7, "project-request", "a", "draft"⟩, ⟨3, 8, "prd", "c", "draft"⟩,
            ⟨2, 7, "prd", "b", "draft"⟩], [], 4⟩ 7 :=
  (getDocuments_canonical_order
      ⟨[], [⟨1, 7, "project-request", "a", "draft"⟩, ⟨3, 8, "prd", "c", "draft"⟩,
            ⟨2, 7, "prd", "b", "draft"⟩], [], 4⟩ 7).2.2
    ⟨[], [⟨2, 7, "prd", "b", "draft"⟩, ⟨3, 8, "prd", "c", "draft"⟩,
          ⟨1, 7, "project-request", "a", "draft"⟩], [], 4⟩
    (by decide) (by decide) (by decide)

/-! ### Store lemmas shared by the upsert and refinement claims -/

/-- A `find?` survives mapping by a function that preserves the predicate. -/
theorem find?_map_of_pres {m : Doc → Bool} {f : Doc → Doc}
    (hpres : ∀ x, m (f x) = m x) :
    ∀ {l : List Doc} {d : Doc}, l.find? m = some d → (l.map f).find? m = some (f d) := by
  intro l
  induction l with
  | nil => intro d h; simp at h
  | cons e tl ih =>
    intro d h
    by_cases he : m e = true
    · rw [List.find?_cons_of_pos _ he] at h
      cases h
      rw [List.map_cons, List.find?_cons_of_pos _ ((hpres e).trans he)]
    · rw [List.find?_cons_of_neg _ (Bool.not_eq_true _ ▸ he)] at h
      rw [List.map_cons, List.find?_cons_of_neg _ ?_]
      · exact ih h
      · rw [hpres e]; exact Bool.not_eq_true _ ▸ he

/-- With distinct ids, searching a list for a member's id finds the member. -/
theorem find?_id_of_nodup : ∀ {l : List Doc}, (l.map (fun d => d.id)).Nodup →
    ∀ {d : Doc}, d ∈ l → l.find? (fun x => x.id == d.id) = some d := by
  intro l
  induction l with
  | nil => intro _ d h; cases h
  | cons e tl ih =>
    intro hnd d hd
    rw [List.map_cons, List.nodup_cons] at hnd
    rcases List.mem_cons.mp hd with rfl | hd
    · exact List.find?_cons_of_pos _ (by simp)
    · have hne : (e.id == d.id) = false := by
        refine beq_eq_false_iff_ne.mpr ?_
        intro he
        exact hnd.1 (he ▸ List.mem_map_of_mem (fun x => x.id) hd)
      rw [List.find?_cons_of_neg _ (by simp [hne])]
      exact ih hnd.2 hd

/-- The patch preserves the row id. -/
theorem applyDocPatch_id (d : Doc) (c? st? : Option String) :
    (applyDocPatch d c? st?).id = d.id := rfl

/-- Updating an existing row returns the patched row and patches it in
place. -/
theorem updateDocument_spec (s : Store) (d : Doc) (c? st? : Option String)
    (hw : StoreWF s) (hd : d ∈ s.documents) :
    updateDocument s d.id c? st?
      = (some (applyDocPatch d c? st?),
         { s with documents := (s.documents.map
             (fun x => if x.id == d.id then applyDocPatch x c? st? else x)) }) := by
  have hids : ((s.documents.map
      (fun x => if x.id == d.id then applyDocPatch x c? st? else x)).map
        (fun x => x.id)) = s.documents.map (fun x => x.id) := by
    rw [List.map_map]
    refine List.map_congr_left ?_
    intro x _
    by_cases h : (x.id == d.id) = true <;> simp [Function.comp, h, applyDocPatch]
  have hnd2 : ((s.documents.map
      (fun x => if x.id == d.id then applyDocPatch x c? st? else x)).map
        (fun x => x.id)).Nodup := by rw [hids]; exact hw.1
  have hmem : applyDocPatch d c? st? ∈ s.documents.map
      (fun x => if x.id == d.id then applyDocPatch x c? st? else x) := by
    have hfd : (fun x => if x.id == d.id then applyDocPatch x c? st? else x) d
        = applyDocPatch d c? st? := by simp
    exact hfd ▸ List.mem_map_of_mem _ hd
  have hfind := find?_id_of_nodup hnd2 hmem
  simp only [updateDocument]
  exact congrArg₂ Prod.mk hfind rfl

/-- Lemma: `updateDocument` preserves store sanity. -/
theorem storeWF_update (s : Store) (id : Nat) (c? st? : Option String)
    (hw : StoreWF s) : StoreWF (updateDocument s id c? st?).2 := by
  obtain ⟨h1, h2, h3⟩ := hw
  refine ⟨?_, ?_, h3⟩
  · show ((s.documents.map
      (fun x => if x.id == id then applyDocPatch x c? st? else x)).map
        (fun x => x.id)).Nodup
    have : ((s.documents.map
        (fun x => if x.id == id then applyDocPatch x c? st? else x)).map
          (fun x => x.id)) = s.documents.map (fun x => x.id) := by
      rw [List.map_map]
      refine List.map_congr_left ?_
      intro x _
      by_cases h : (x.id == id) = true <;> simp [Function.comp, h, applyDocPatch]
    rw [this]; exact h1
  · intro d hd
    obtain ⟨x, hx, rfl⟩ := List.mem_map.mp hd
    show (if x.id == id then applyDocPatch x c? st? else x).id < s.nextDocId
    by_cases h : (x.id == id) = true <;> simp [h, applyDocPatch] <;> exact h2 x hx

/-- Lemma: `createVersion` preserves store sanity when the referenced id is live. -/
theorem storeWF_createVersion (s : Store) (v : VersionRec) (hw : StoreWF s)
    (hv : v.documentId < s.nextDocId) : StoreWF (createVersion s v) := by
  obtain ⟨h1, h2, h3⟩ := hw
  refine ⟨h1, h2, ?_⟩
  intro w hwm
  rcases List.mem_append.mp hwm with h | h
  · exact h3 w h
  · rcases List.mem_singleton.mp h with rfl
    exact hv

/-- Lemma: `createDocument` preserves store sanity. -/
theorem storeWF_createDocument (s : Store) (p : Nat) (t c st : String)
    (hw : StoreWF s) : StoreWF (createDocument s p t c st).2 := by
  obtain ⟨h1, h2, h3⟩ := hw
  refine ⟨?_, ?_, ?_⟩
  · show ((s.documents ++ [(⟨s.nextDocId, p, t, c, st⟩ : Doc)]).map (fun x => x.id)).Nodup
    rw [List.map_append]
    refine List.nodup_append.mpr ⟨h1, List.nodup_singleton _, ?_⟩
    intro a ha hb
    rcases List.mem_singleton.mp hb with rfl
    obtain ⟨x, hx, hxa⟩ := List.mem_map.mp ha
    exact absurd (hxa ▸ h2 x hx) (lt_irrefl _)
  · intro d hd
    rcases List.mem_append.mp hd with h | h
    · exact lt_trans (h2 d h) (Nat.lt_succ_self _)
    · rcases List.mem_singleton.mp h with rfl
      exact Nat.lt_succ_self _
  · intro v hv
    exact lt_trans (h3 v hv) (Nat.lt_succ_self _)

/-- Versions recorded after an append. -/
theorem versionsFor_createVersion (s : Store) (v : VersionRec) (x : Nat) :
    versionsFor (createVersion s v) x
      = versionsFor s x ++ if v.documentId == x then [v] else [] := by
  simp only [versionsFor, createVersion, List.filter_append, List.filter_cons,
    List.filter_nil]

/-- Updates do not touch the version table. -/
theorem versionsFor_update (s : Store) (id : Nat) (c? st? : Option String) (x : Nat) :
    versionsFor (updateDocument s id c? st?).2 x = versionsFor s x := rfl

/-- Creating a document does not touch the version table. -/
theorem versionsFor_createDocument (s : Store) (p : Nat) (t c st : String) (x : Nat) :
    versionsFor (createDocument s p t c st).2 x = versionsFor s x := rfl

/-- A well-formed store has no versions against the next free id. -/
theorem versionsFor_fresh (s : Store) (hw : StoreWF s) :
    versionsFor s s.nextDocId = [] := by
  refine List.filter_eq_nil_iff.mpr ?_
  intro v hv h
  exact absurd (beq_iff_eq.mp h ▸ hw.2.2 v hv) (lt_irrefl _)

/-- Refinement-snapshot count after an append. -/
theorem refCount_createVersion (s : Store) (v : VersionRec) (x : Nat) :
    refCount (createVersion s v) x
      = refCount s x
        + if v.documentId == x && v.source == "agent-refinement" then 1 else 0 := by
  simp only [refCount, createVersion, List.filter_append, List.filter_cons,
    List.filter_nil, List.length_append]
  split <;> rfl

/-- Updates do not change the refinement-snapshot count. -/
theorem refCount_update (s : Store) (id : Nat) (c? st? : Option String) (x : Nat) :
    refCount (updateDocument s id c? st?).2 x = refCount s x := rfl

/-- Creating a document does not change the refinement-snapshot count. -/
theorem refCount_createDocument (s : Store) (p : Nat) (t c st : String) (x : Nat) :
    refCount (createDocument s p t c st).2 x = refCount s x := rfl

/-! ### Claim C1 — snapshot-then-overwrite versioning -/

/-- A snapshot list counts one version per operation. -/
theorem snapshots_length (docId : Nat) :
    ∀ (ops : List (String × String)) (prev : String),
      (snapshots docId prev ops).length = ops.length := by
  intro ops
  induction ops with
  | nil => intro prev; rfl
  | cons op rest ih =>
    intro prev
    obtain ⟨c, src⟩ := op
    simp [snapshots, ih]

/-- One upsert against an existing (project, type) document: a snapshot of
the previous content is written, then the row is overwritten in place. -/
theorem upsert_existing_step (s : Store) (p : Nat) (t c src : String) (d0 : Doc)
    (hw : StoreWF s) (hf : s.documents.find? (matchesPT p t) = some d0) :
    ∃ s',
      upsertDocumentContent s p t c src
        = (.ok (applyDocPatch d0 (some c) (some "draft")), s') ∧
      s'.documents.find? (matchesPT p t)
        = some (applyDocPatch d0 (some c) (some "draft")) ∧
      StoreWF s' ∧ s'.nextDocId = s.nextDocId ∧
      (∀ x, versionsFor s' x = versionsFor s x
        ++ if d0.id == x then [⟨d0.id, d0.content, src⟩] else []) := by
  have hmem := List.mem_of_find?_eq_some hf
  have hidlt : d0.id < s.nextDocId := hw.2.1 d0 hmem
  have hw1 : StoreWF (createVersion s ⟨d0.id, d0.content, src⟩) :=
    storeWF_createVersion s _ hw hidlt
  have hd1 : d0 ∈ (createVersion s ⟨d0.id, d0.content, src⟩).documents := hmem
  have hupd := updateDocument_spec (createVersion s ⟨d0.id, d0.content, src⟩) d0
    (some c) (some "draft") hw1 hd1
  refine ⟨(updateDocument (createVersion s ⟨d0.id, d0.content, src⟩) d0.id (some c)
      (some "draft")).2, ?_, ?_, ?_, ?_, ?_⟩
  · simp only [upsertDocumentContent, hf]
    rw [hupd]
  · rw [hupd]
    have hp : ∀ x : Doc, matchesPT p t
        (if x.id == d0.id then applyDocPatch x (some c) (some "draft") else x)
          = matchesPT p t x := by
      intro x
      by_cases h : (x.id == d0.id) = true <;> simp [matchesPT, h, applyDocPatch]
    have hres := find?_map_of_pres (f := fun x =>
        if x.id == d0.id then applyDocPatch x (some c) (some "draft") else x) hp
      (l := (createVersion s ⟨d0.id, d0.content, src⟩).documents) (d := d0) hf
    simpa using hres
  · exact storeWF_update _ _ _ _ hw1
  · rfl
  · intro x
    rw [versionsFor_update, versionsFor_createVersion]

/-- One upsert with no (project, type) document: a fresh row is created and
no version is written. -/
theorem upsert_create_step (s : Store) (p : Nat) (t c src : String)
    (hw : StoreWF s) (hf : s.documents.find? (matchesPT p t) = none) :
    ∃ s',
      upsertDocumentContent s p t c src
        = (.ok (⟨s.nextDocId, p, t, c, "draft"⟩ : Doc), s') ∧
      s'.documents.find? (matchesPT p t) = some (⟨s.nextDocId, p, t, c, "draft"⟩ : Doc) ∧
      StoreWF s' ∧ (∀ x, versionsFor s' x = versionsFor s x) := by
  refine ⟨(createDocument s p t c "draft").2, ?_, ?_, ?_, ?_⟩
  · simp only [upsertDocumentContent, hf]
    rfl
  · show (s.documents ++ [(⟨s.nextDocId, p, t, c, "draft"⟩ : Doc)]).find? (matchesPT p t)
        = _
    rw [List.find?_append, hf]
    simp [matchesPT]
  · exact storeWF_createDocument s p t c "draft" hw
  · intro x
    rfl

/-- Running any upsert sequence against an existing (project, type) document:
the row stays in place under its id, its final content is the last
operation's content, and the version trail appended for it is exactly the
snapshot chain — each snapshot carrying the content the document held
immediately before that overwrite, tagged with that operation's source. -/
theorem runUpserts_existing (p : Nat) (t : String) :
    ∀ (ops : List (String × String)) (s : Store) (d0 : Doc), StoreWF s →
      s.documents.find? (matchesPT p t) = some d0 →
      StoreWF (runUpserts p t ops s) ∧
      (∃ dF, (runUpserts p t ops s).documents.find? (matchesPT p t) = some dF ∧
        dF.id = d0.id ∧ dF.content = (ops.map Prod.fst).getLastD d0.content) ∧
      (∀ x, versionsFor (runUpserts p t ops s) x = versionsFor s x
        ++ if d0.id == x then snapshots d0.id d0.content ops else []) := by
  intro ops
  induction ops with
  | nil =>
    intro s d0 hw hf
    refine ⟨hw, ⟨d0, hf, rfl, rfl⟩, ?_⟩
    intro x
    simp [runUpserts, snapshots]
  | cons op rest ih =>
    intro s d0 hw hf
    obtain ⟨c, src⟩ := op
    obtain ⟨s', heq, hfind, hw', hnext, hver⟩ := upsert_existing_step s p t c src d0 hw hf
    have hrun : runUpserts p t ((c, src) :: rest) s = runUpserts p t rest s' := by
      simp [runUpserts, heq]
    obtain ⟨hwF, ⟨dF, hfF, hidF, hcF⟩, hverF⟩ :=
      ih s' (applyDocPatch d0 (some c) (some "draft")) hw' hfind
    refine ⟨hrun ▸ hwF, ⟨dF, hrun ▸ hfF, ?_, ?_⟩, ?_⟩
    · rw [hidF, applyDocPatch_id]
    · rw [hcF]
      show (rest.map Prod.fst).getLastD c = _
      rw [List.map_cons, List.getLastD_cons]
    · intro x
      rw [hrun, hverF x, hver x]
      by_cases h : (d0.id == x) = true
      · have hcond : ((applyDocPatch d0 (some c) (some "draft")).id == x) = true := h
        rw [if_pos h, if_pos hcond, if_pos h, List.append_assoc]
        show _ = versionsFor s x ++ (⟨d0.id, d0.content, src⟩ :: snapshots d0.id c rest)
        rfl
      · have hcond : ((applyDocPatch d0 (some c) (some "draft")).id == x) = false :=
          Bool.not_eq_true _ ▸ h
        rw [if_neg ?_, if_neg ?_, if_neg ?_, List.append_nil] <;> simp [h, hcond]

/-- The id of the document a (project, type) upsert sequence acts on: the
existing row's id, else the next serial id (for the row the first call
creates). -/
def upsertTarget (s : Store) (p : Nat) (t : String) : Nat :=
  match s.documents.find? (matchesPT p t) with
  | some d0 => d0.id
  | none => s.nextDocId

/-- The version rows an upsert sequence must append for its target: the full
snapshot chain from the pre-existing content, or — when the first call
creates the document — the chain from the first operation's content over the
remaining operations. -/
def expectedSnapshots (s : Store) (p : Nat) (t : String)
    (ops : List (String × String)) : List VersionRec :=
  match s.documents.find? (matchesPT p t) with
  | some d0 => snapshots d0.id d0.content ops
  | none =>
    match ops with
    | [] => []
    | (c, _) :: rest => snapshots s.nextDocId c rest

/-- The content the target document holds after an upsert sequence (none when
nothing existed and nothing was upserted). -/
def expectedFinalContent (s : Store) (p : Nat) (t : String)
    (ops : List (String × String)) : Option String :=
  match s.documents.find? (matchesPT p t), ops with
  | some d0, _ => some ((ops.map Prod.fst).getLastD d0.content)
  | none, [] => none
  | none, (c, _) :: rest => some ((rest.map Prod.fst).getLastD c)

/-- Claim C1: over any sequence of content upserts on a (project, type) pair,
a snapshot of the previous content (tagged with the operation's source) is
appended exactly when a document already exists, none on first creation; so
the versions appended for the target number `n` when a document pre-existed
and `n − 1` when the first call created it, each carrying the document's
content immediately before the corresponding overwrite, and the final
document carries the last upsert's content. -/
theorem upsert_versioning (s : Store) (p : Nat) (t : String)
    (ops : List (String × String)) (hw : StoreWF s) :
    versionsFor (runUpserts p t ops s) (upsertTarget s p t)
      = versionsFor s (upsertTarget s p t) ++ expectedSnapshots s p t ops ∧
    (expectedSnapshots s p t ops).length
      = (match s.documents.find? (matchesPT p t) with
         | some _ => ops.length
         | none => ops.length - 1) ∧
    ((runUpserts p t ops s).documents.find? (matchesPT p t)).map (fun d => d.content)
      = expectedFinalContent s p t ops := by
  cases hfc : s.documents.find? (matchesPT p t) with
  | some d0 =>
    obtain ⟨hwF, ⟨dF, hfF, hidF, hcF⟩, hverF⟩ := runUpserts_existing p t ops s d0 hw hfc
    refine ⟨?_, ?_, ?_⟩
    · have h := hverF (upsertTarget s p t)
      have htgt : upsertTarget s p t = d0.id := by simp [upsertTarget, hfc]
      rw [htgt] at h ⊢
      rw [h, if_pos (by simp)]
      simp [expectedSnapshots, hfc]
    · simp [expectedSnapshots, hfc, snapshots_length]
    · rw [hfF]
      simp [expectedFinalContent, hfc, hcF]
  | none =>
    cases ops with
    | nil =>
      refine ⟨?_, ?_, ?_⟩
      · simp [runUpserts, expectedSnapshots, hfc]
      · simp [expectedSnapshots, hfc]
      · simp [runUpserts, expectedFinalContent, hfc]
    | cons op rest =>
      obtain ⟨c, src⟩ := op
      obtain ⟨s', heq, hfind, hw', hsame⟩ := upsert_create_step s p t c src hw hfc
      have hrun : runUpserts p t ((c, src) :: rest) s = runUpserts p t rest s' := by
        simp [runUpserts, heq]
      obtain ⟨hwF, ⟨dF, hfF, hidF, hcF⟩, hverF⟩ :=
        runUpserts_existing p t rest s' ⟨s.nextDocId, p, t, c, "draft"⟩ hw' hfind
      have htgt : upsertTarget s p t = s.nextDocId := by simp [upsertTarget, hfc]
      refine ⟨?_, ?_, ?_⟩
      · rw [htgt, hrun, hverF s.nextDocId, hsame s.nextDocId, if_pos (by simp)]
        simp [expectedSnapshots, hfc]
      · simp [expectedSnapshots, hfc, snapshots_length]
      · rw [hrun, hfF]
        simp [expectedFinalContent, hfc, hcF]

/-- Witness for C1: three upserts from an empty store — the first creates,
the second and third snapshot "a" then "b"; the final content is "c". -/
theorem upsert_versioning_witness :
    versionsFor (runUpserts 1 "prd"
        [("a", "ai-generator"), ("b", "ai-generator"), ("c", "agent-refinement")]
        ⟨[], [], [], 0⟩) (upsertTarget ⟨[], [], [], 0⟩ 1 "prd")
      = versionsFor ⟨[], [], [], 0⟩ (upsertTarget ⟨[], [], [], 0⟩ 1 "prd")
        ++ expectedSnapshots ⟨[], [], [], 0⟩ 1 "prd"
            [("a", "ai-generator"), ("b", "ai-generator"), ("c", "agent-refinement")] ∧
    (expectedSnapshots ⟨[], [], [], 0⟩ 1 "prd"
        [("a", "ai-generator"), ("b", "ai-generator"), ("c", "agent-refinement")]).length
      = (match Store.documents ⟨[], [], [], 0⟩ |>.find? (matchesPT 1 "prd") with
         | some _ => 3
         | none => 3 - 1) ∧
    ((runUpserts 1 "prd"
        [("a", "ai-generator"), ("b", "ai-generator"), ("c", "agent-refinement")]
        ⟨[], [], [], 0⟩).documents.find? (matchesPT 1 "prd")).map (fun d => d.content)
      = expectedFinalContent ⟨[], [], [], 0⟩ 1 "prd"
          [("a", "ai-generator"), ("b", "ai-generator"), ("c", "agent-refinement")] :=
  upsert_versioning ⟨[], [], [], 0⟩ 1 "prd"
    [("a", "ai-generator"), ("b", "ai-generator"), ("c", "agent-refinement")]
    (by refine ⟨List.nodup_nil, ?_, ?_⟩ <;> intro x hx <;> cases hx)

/-! ### Claims C2, C3, C7 — the agent-mode refinement loop -/

/-- A successful single-document generation returns the extracted content as
a draft row that lives in the resulting store, without touching the
refinement-snapshot counts. -/
theorem generateProjectDocument_ok (tpl : Template) (gd : GenData)
    (project : ProjectRec) (dt : String) (existing : List Doc) (s : Store)
    (hw : StoreWF s)
    (hlive : ∀ ed, existing.find? (fun d => d.type == dt) = some ed →
      ed ∈ s.documents) :
    ∃ d s', generateProjectDocument (.ok tpl) (.ok gd) project dt existing s
        = (.ok d, s') ∧
      d ∈ s'.documents ∧ StoreWF s' ∧ d.content = genContentOf gd ∧
      d.status = "draft" ∧ (∀ x, refCount s' x = refCount s x) := by
  cases hfe : existing.find? (fun doc => doc.type == dt) with
  | some ed =>
    have hmem := hlive ed hfe
    have hidlt : ed.id < s.nextDocId := hw.2.1 ed hmem
    have hw1 := storeWF_createVersion s ⟨ed.id, ed.content, "ai-generator"⟩ hw hidlt
    have hupd := updateDocument_spec (createVersion s ⟨ed.id, ed.content, "ai-generator"⟩)
      ed (some (genContentOf gd)) (some "draft") hw1 hmem
    refine ⟨applyDocPatch ed (some (genContentOf gd)) (some "draft"),
      (updateDocument (createVersion s ⟨ed.id, ed.content, "ai-generator"⟩) ed.id
        (some (genContentOf gd)) (some "draft")).2, ?_, ?_, ?_, rfl, rfl, ?_⟩
    · simp only [generateProjectDocument, generateDocumentContent_ok, hfe]
      rw [hupd]
    · show applyDocPatch ed (some (genContentOf gd)) (some "draft")
        ∈ (createVersion s ⟨ed.id, ed.content, "ai-generator"⟩).documents.map
            (fun x => if x.id == ed.id
              then applyDocPatch x (some (genContentOf gd)) (some "draft") else x)
      simpa using List.mem_map_of_mem
        (fun x => if x.id == ed.id
          then applyDocPatch x (some (genContentOf gd)) (some "draft") else x) hmem
    · exact storeWF_update _ _ _ _ hw1
    · intro x
      rw [refCount_update, refCount_createVersion]
      simp
  | none =>
    refine ⟨⟨s.nextDocId, project.id, dt, genContentOf gd, "draft"⟩,
      (createDocument s project.id dt (genContentOf gd) "draft").2, ?_, ?_, ?_, rfl,
      rfl, ?_⟩
    · simp only [generateProjectDocument, generateDocumentContent_ok, hfe]
      rfl
    · show _ ∈ s.documents ++ [(⟨s.nextDocId, project.id, dt, genContentOf gd,
        "draft"⟩ : Doc)]
      simp
    · exact storeWF_createDocument s project.id dt (genContentOf gd) "draft" hw
    · intro x
      rfl

/-- A thrown evaluation call is caught and breaks the loop. -/
theorem refineLoop_break_evalThrow (evalO : Nat → String → String → Except Unit EvalResult)
    (genO : Nat → String → Except Unit String) (dt criteria : String) (i r : Nat)
    (doc : Doc) (s : Store) (he : evalO i doc.content criteria = .error ()) :
    refineLoop evalO genO dt criteria i (r + 1) doc s = (doc, s) := by
  simp [refineLoop, he]

/-- A passing evaluation breaks the loop with nothing written. -/
theorem refineLoop_break_accept (evalO : Nat → String → String → Except Unit EvalResult)
    (genO : Nat → String → Except Unit String) (dt criteria : String) (i r : Nat)
    (doc : Doc) (s : Store) (ev : EvalResult)
    (he : evalO i doc.content criteria = .ok ev) (hm : ev.meets_criteria = true) :
    refineLoop evalO genO dt criteria i (r + 1) doc s = (doc, s) := by
  simp [refineLoop, he, hm]

/-- A thrown generation call is caught and breaks the loop. -/
theorem refineLoop_break_genThrow (evalO : Nat → String → String → Except Unit EvalResult)
    (genO : Nat → String → Except Unit String) (dt criteria : String) (i r : Nat)
    (doc : Doc) (s : Store) (ev : EvalResult)
    (he : evalO i doc.content criteria = .ok ev) (hm : ev.meets_criteria = false)
    (hg : genO i (improvementPrompt dt ev doc.content) = .error ()) :
    refineLoop evalO genO dt criteria i (r + 1) doc s = (doc, s) := by
  simp [refineLoop, he, hm, hg]

/-- One full revision cycle: snapshot the current content with source
`agent-refinement`, overwrite the row with the improved content as a draft,
and continue with the next iteration. -/
theorem refineLoop_revise_step (evalO : Nat → String → String → Except Unit EvalResult)
    (genO : Nat → String → Except Unit String) (dt criteria : String) (i r : Nat)
    (doc : Doc) (s : Store) (ev : EvalResult) (c : String)
    (hw : StoreWF s) (hd : doc ∈ s.documents)
    (he : evalO i doc.content criteria = .ok ev) (hm : ev.meets_criteria = false)
    (hg : genO i (improvementPrompt dt ev doc.content) = .ok c) :
    ∃ s1,
      refineLoop evalO genO dt criteria i (r + 1) doc s
        = refineLoop evalO genO dt criteria (i + 1) r
            (applyDocPatch doc (some c) (some "draft")) s1 ∧
      StoreWF s1 ∧ applyDocPatch doc (some c) (some "draft") ∈ s1.documents ∧
      (∀ x, refCount s1 x = refCount s x + if doc.id == x then 1 else 0) := by
  have hidlt : doc.id < s.nextDocId := hw.2.1 doc hd
  have hw1 := storeWF_createVersion s ⟨doc.id, doc.content, "agent-refinement"⟩ hw hidlt
  have hupd := updateDocument_spec
    (createVersion s ⟨doc.id, doc.content, "agent-refinement"⟩) doc (some c)
    (some "draft") hw1 hd
  refine ⟨(updateDocument (createVersion s ⟨doc.id, doc.content, "agent-refinement"⟩)
      doc.id (some c) (some "draft")).2, ?_, ?_, ?_, ?_⟩
  · simp only [refineLoop, he, hm, hg]
    rw [hupd]
    rfl
  · exact storeWF_update _ _ _ _ hw1
  · show applyDocPatch doc (some c) (some "draft")
      ∈ (createVersion s ⟨doc.id, doc.content, "agent-refinement"⟩).documents.map
          (fun x => if x.id == doc.id then applyDocPatch x (some c) (some "draft") else x)
    simpa using List.mem_map_of_mem
      (fun x => if x.id == doc.id then applyDocPatch x (some c) (some "draft") else x) hd
  · intro x
    rw [refCount_update, refCount_createVersion]
    simp

/-- Running `k` guaranteed revision cycles from iteration `i`: the loop
reaches iteration `i + k` with `k` fewer remaining tries, holding the `k`-th
revision's content (the initial content when `k = 0`), having appended
exactly `k` refinement snapshots for the document and none for any other. -/
theorem refineLoop_prefix (evalO : Nat → String → String → Except Unit EvalResult)
    (genO : Nat → String → Except Unit String) (dt criteria : String)
    (evs : Nat → EvalResult) (rc : Nat → String) :
    ∀ (k r i : Nat) (doc : Doc) (s : Store), k ≤ r → StoreWF s → doc ∈ s.documents →
    (∀ j, j < k → (∀ c cr, evalO (i + j) c cr = .ok (evs (i + j))) ∧
        (evs (i + j)).meets_criteria = false ∧
        (∀ pr, genO (i + j) pr = .ok (rc (i + j)))) →
    ∃ doc' s',
      refineLoop evalO genO dt criteria i r doc s
        = refineLoop evalO genO dt criteria (i + k) (r - k) doc' s' ∧
      StoreWF s' ∧ doc' ∈ s'.documents ∧ doc'.id = doc.id ∧
      doc'.content = (if k = 0 then doc.content else rc (i + k - 1)) ∧
      refCount s' doc.id = refCount s doc.id + k ∧
      (∀ x, x ≠ doc.id → refCount s' x = refCount s x) := by
  intro k
  induction k with
  | zero =>
    intro r i doc s _ hw hd _
    exact ⟨doc, s, by simp, hw, hd, rfl, by simp, by simp, fun _ _ => rfl⟩
  | succ k ih =>
    intro r i doc s hkr hw hd hrev
    obtain ⟨r', rfl⟩ : ∃ r', r = r' + 1 := ⟨r - 1, by omega⟩
    obtain ⟨h0e, h0m, h0g⟩ := hrev 0 (Nat.succ_pos k)
    have he : evalO i doc.content criteria = .ok (evs i) := by
      simpa using h0e doc.content criteria
    have hm0 : (evs i).meets_criteria = false := by simpa using h0m
    have hg : genO i (improvementPrompt dt (evs i) doc.content) = .ok (rc i) := by
      simpa using h0g (improvementPrompt dt (evs i) doc.content)
    obtain ⟨s1, hstep, hw1, hmem1, hrc1⟩ := refineLoop_revise_step evalO genO dt criteria
      i r' doc s (evs i) (rc i) hw hd he hm0 hg
    have hrev' : ∀ j, j < k → (∀ c cr, evalO (i + 1 + j) c cr = .ok (evs (i + 1 + j))) ∧
        (evs (i + 1 + j)).meets_criteria = false ∧
        (∀ pr, genO (i + 1 + j) pr = .ok (rc (i + 1 + j))) := by
      intro j hj
      have hidx : i + (j + 1) = i + 1 + j := by omega
      obtain ⟨a, b, c2⟩ := hrev (j + 1) (by omega)
      exact ⟨fun c cr => hidx ▸ a c cr, hidx ▸ b, fun pr => hidx ▸ c2 pr⟩
    obtain ⟨doc', s', hrun, hw', hmem', hid', hcont', hcount', hother'⟩ :=
      ih r' (i + 1) (applyDocPatch doc (some (rc i)) (some "draft")) s1
        (by omega) hw1 hmem1 hrev'
    have hixk : i + 1 + k = i + (k + 1) := by omega
    have hrem : r' - k = r' + 1 - (k + 1) := by omega
    refine ⟨doc', s', ?_, hw', hmem', ?_, ?_, ?_, ?_⟩
    · rw [hstep, hrun, hixk, hrem]
    · rw [hid', applyDocPatch_id]
    · rw [hcont']
      cases k with
      | zero => simp [applyDocPatch]
      | succ k2 =>
        have h1 : ¬(k2 + 1 = 0) := by omega
        have h2 : ¬(k2 + 1 + 1 = 0) := by omega
        rw [if_neg h1, if_neg h2]
        have : i + 1 + (k2 + 1) - 1 = i + (k2 + 1 + 1) - 1 := by omega
        rw [this]
    · have hid1 : (applyDocPatch doc (some (rc i)) (some "draft")).id = doc.id :=
        applyDocPatch_id _ _ _
      rw [hid1] at hcount'
      rw [hcount', hrc1 doc.id, if_pos (by simp)]
      omega
    · intro x hx
      have hid1 : (applyDocPatch doc (some (rc i)) (some "draft")).id = doc.id :=
        applyDocPatch_id _ _ _
      have hne : ¬((doc.id == x) = true) := by
        simp only [beq_iff_eq]
        exact fun h => hx h.symm
      rw [hother' x (hid1 ▸ hx), hrc1 x, if_neg hne]
      omega

/-- Computation of a full agent run from a settled initial generation and a
settled loop: the final update marks the loop's document `completed` in
place. -/
theorem agentMode_compute (tplO : Except Unit Template) (api : Except Unit GenData)
    (evalO : Nat → String → String → Except Unit EvalResult)
    (genO : Nat → String → Except Unit String) (project : ProjectRec) (dt : String)
    (existing : List Doc) (maxIterations : Nat) (s : Store) (d0 : Doc) (s1 : Store)
    (doc' : Doc) (s2 : Store)
    (hgen0 : generateProjectDocument tplO api project dt existing s = (.ok d0, s1))
    (hloop : refineLoop evalO genO dt (criteriaFor dt) 0 maxIterations d0 s1
      = (doc', s2))
    (hw2 : StoreWF s2) (hmem2 : doc' ∈ s2.documents) :
    agentModeGenerateDocument tplO api evalO genO project dt existing maxIterations s
      = (.ok (applyDocPatch doc' none (some "completed")),
         (updateDocument s2 doc'.id none (some "completed")).2) := by
  have hupd := updateDocument_spec s2 doc' none (some "completed") hw2 hmem2
  simp only [agentModeGenerateDocument, hgen0, hloop]
  rw [hupd]

/-- Claim C3: when no evaluation ever passes and no call throws, the agent
loop performs exactly `maxIterations` revision cycles — each persisting one
refinement snapshot for the document — and returns the document with status
`completed`. -/
theorem agent_refinement_exhaustion (tpl : Template) (gd : GenData)
    (evalO : Nat → String → String → Except Unit EvalResult)
    (genO : Nat → String → Except Unit String)
    (evs : Nat → EvalResult) (rc : Nat → String)
    (project : ProjectRec) (dt : String) (existing : List Doc)
    (maxIterations : Nat) (s : Store)
    (hw : StoreWF s)
    (hlive : ∀ ed, existing.find? (fun d => d.type == dt) = some ed →
      ed ∈ s.documents)
    (hev : ∀ j c cr, evalO j c cr = .ok (evs j))
    (hm : ∀ j, (evs j).meets_criteria = false)
    (hgen : ∀ j pr, genO j pr = .ok (rc j)) :
    ∃ d s', agentModeGenerateDocument (.ok tpl) (.ok gd) evalO genO project dt
        existing maxIterations s = (.ok d, s') ∧
      d.status = "completed" ∧
      refCount s' d.id = refCount s d.id + maxIterations := by
  obtain ⟨d0, s1, hgen0, hmem1, hw1, hcont0, hstat0, hrc0⟩ :=
    generateProjectDocument_ok tpl gd project dt existing s hw hlive
  obtain ⟨doc', s2, hrun, hw2, hmem2, hid2, hcont2, hcnt2, _⟩ :=
    refineLoop_prefix evalO genO dt (criteriaFor dt) evs rc maxIterations
      maxIterations 0 d0 s1 le_rfl hw1 hmem1
      (fun j _ => ⟨fun c cr => hev (0 + j) c cr, hm (0 + j), fun pr => hgen (0 + j) pr⟩)
  have hloop : refineLoop evalO genO dt (criteriaFor dt) 0 maxIterations d0 s1
      = (doc', s2) := by
    rw [hrun, Nat.sub_self]
    rfl
  refine ⟨applyDocPatch doc' none (some "completed"),
    (updateDocument s2 doc'.id none (some "completed")).2,
    agentMode_compute _ _ _ _ _ _ _ _ _ _ _ _ _ hgen0 hloop hw2 hmem2, rfl, ?_⟩
  show refCount (updateDocument s2 doc'.id none (some "completed")).2 doc'.id
    = refCount s doc'.id + maxIterations
  rw [refCount_update, hid2, hcnt2, hrc0 d0.id]

/-- Witness for C3 at a concrete run: empty store, constant oracles that
never pass, three iterations. -/
theorem agent_refinement_exhaustion_witness :
    ∃ d s', agentModeGenerateDocument (.ok ⟨"prd", "p", true⟩)
        (.ok ⟨some "G", none, "raw"⟩)
        (fun _ _ _ => .ok ⟨4, "fb", false, ["s1"]⟩) (fun _ _ => .ok "better")
        ⟨1, "n", "idea"⟩ "prd" [] 3 ⟨[], [], [], 0⟩ = (.ok d, s') ∧
      d.status = "completed" ∧
      refCount s' d.id = refCount ⟨[], [], [], 0⟩ d.id + 3 :=
  agent_refinement_exhaustion ⟨"prd", "p", true⟩ ⟨some "G", none, "raw"⟩
    (fun _ _ _ => .ok ⟨4, "fb", false, ["s1"]⟩) (fun _ _ => .ok "better")
    (fun _ => ⟨4, "fb", false, ["s1"]⟩) (fun _ => "better")
    ⟨1, "n", "idea"⟩ "prd" [] 3 ⟨[], [], [], 0⟩
    (by refine ⟨List.nodup_nil, ?_, ?_⟩ <;> intro x hx <;> cases hx)
    (by intro ed h; simp at h)
    (fun _ _ _ => rfl) (fun _ => rfl) (fun _ _ => rfl)

/-- Claim C7: when the very first evaluation passes, the loop performs zero
revision cycles — no refinement snapshot is written — and the returned
document carries exactly the initial generation's content, with only the
status changed to `completed`. -/
theorem agent_refinement_early_accept (tpl : Template) (gd : GenData)
    (evalO : Nat → String → String → Except Unit EvalResult)
    (genO : Nat → String → Except Unit String) (ev0 : EvalResult)
    (project : ProjectRec) (dt : String) (existing : List Doc)
    (maxIterations : Nat) (s : Store)
    (hpos : 0 < maxIterations) (hw : StoreWF s)
    (hlive : ∀ ed, existing.find? (fun d => d.type == dt) = some ed →
      ed ∈ s.documents)
    (hev0 : ∀ c cr, evalO 0 c cr = .ok ev0) (hm : ev0.meets_criteria = true) :
    ∃ d s', agentModeGenerateDocument (.ok tpl) (.ok gd) evalO genO project dt
        existing maxIterations s = (.ok d, s') ∧
      d.content = genContentOf gd ∧ d.status = "completed" ∧
      refCount s' d.id = refCount s d.id := by
  obtain ⟨d0, s1, hgen0, hmem1, hw1, hcont0, hstat0, hrc0⟩ :=
    generateProjectDocument_ok tpl gd project dt existing s hw hlive
  obtain ⟨m, rfl⟩ : ∃ m, maxIterations = m + 1 := ⟨maxIterations - 1, by omega⟩
  have hloop : refineLoop evalO genO dt (criteriaFor dt) 0 (m + 1) d0 s1
      = (d0, s1) :=
    refineLoop_break_accept evalO genO dt (criteriaFor dt) 0 m d0 s1 ev0
      (hev0 d0.content (criteriaFor dt)) hm
  refine ⟨applyDocPatch d0 none (some "completed"),
    (updateDocument s1 d0.id none (some "completed")).2,
    agentMode_compute _ _ _ _ _ _ _ _ _ _ _ _ _ hgen0 hloop hw1 hmem1, hcont0, rfl, ?_⟩
  show refCount (updateDocument s1 d0.id none (some "completed")).2 d0.id
    = refCount s d0.id
  rw [refCount_update, hrc0 d0.id]

/-- Witness for C7: the first evaluation passes, so the returned content is
the extracted initial generation. -/
theorem agent_refinement_early_accept_witness :
    ∃ d s', agentModeGenerateDocument (.ok ⟨"prd", "p", true⟩)
        (.ok ⟨some "G", none, "raw"⟩)
        (fun _ _ _ => .ok ⟨9, "great", true, []⟩) (fun _ _ => .ok "better")
        ⟨1, "n", "idea"⟩ "prd" [] 3 ⟨[], [], [], 0⟩ = (.ok d, s') ∧
      d.content = genContentOf ⟨some "G", none, "raw"⟩ ∧ d.status = "completed" ∧
      refCount s' d.id = refCount ⟨[], [], [], 0⟩ d.id :=
  agent_refinement_early_accept ⟨"prd", "p", true⟩ ⟨some "G", none, "raw"⟩
    (fun _ _ _ => .ok ⟨9, "great", true, []⟩) (fun _ _ => .ok "better")
    ⟨9, "great", true, []⟩ ⟨1, "n", "idea"⟩ "prd" [] 3 ⟨[], [], [], 0⟩
    (by decide)
    (by refine ⟨List.nodup_nil, ?_, ?_⟩ <;> intro x hx <;> cases hx)
    (by intro ed h; simp at h)
    (fun _ _ => rfl) rfl

/-- Claim C2: if iterations `0 … k−1` are full revision cycles and the
evaluation or generation call of iteration `k` (0-based; `k < maxIterations`)
throws, the exception is caught: the run still returns normally, with the
content persisted after the `k`-th revision (the initial generation's content
when `k = 0`), status `completed`, and exactly `k` refinement snapshots. -/
theorem agent_refinement_fail_soft (tpl : Template) (gd : GenData)
    (evalO : Nat → String → String → Except Unit EvalResult)
    (genO : Nat → String → Except Unit String)
    (evs : Nat → EvalResult) (rc : Nat → String)
    (project : ProjectRec) (dt : String) (existing : List Doc)
    (k maxIterations : Nat) (s : Store)
    (hk : k < maxIterations) (hw : StoreWF s)
    (hlive : ∀ ed, existing.find? (fun d => d.type == dt) = some ed →
      ed ∈ s.documents)
    (hrev : ∀ j, j < k → (∀ c cr, evalO j c cr = .ok (evs j)) ∧
      (evs j).meets_criteria = false ∧ (∀ pr, genO j pr = .ok (rc j)))
    (hthrow : (∀ c cr, evalO k c cr = .error ()) ∨
      ((∀ c cr, evalO k c cr = .ok (evs k)) ∧ (evs k).meets_criteria = false ∧
        (∀ pr, genO k pr = .error ()))) :
    ∃ d s', agentModeGenerateDocument (.ok tpl) (.ok gd) evalO genO project dt
        existing maxIterations s = (.ok d, s') ∧
      d.status = "completed" ∧
      d.content = (if k = 0 then genContentOf gd else rc (k - 1)) ∧
      refCount s' d.id = refCount s d.id + k := by
  obtain ⟨d0, s1, hgen0, hmem1, hw1, hcont0, hstat0, hrc0⟩ :=
    generateProjectDocument_ok tpl gd project dt existing s hw hlive
  obtain ⟨doc', s2, hrun, hw2, hmem2, hid2, hcont2, hcnt2, _⟩ :=
    refineLoop_prefix evalO genO dt (criteriaFor dt) evs rc k maxIterations 0 d0 s1
      (le_of_lt hk) hw1 hmem1
      (fun j hj => ⟨fun c cr => by simpa using (hrev j hj).1 c cr,
        by simpa using (hrev j hj).2.1, fun pr => by simpa using (hrev j hj).2.2 pr⟩)
  obtain ⟨m, hmrem⟩ : ∃ m, maxIterations - k = m + 1 := ⟨maxIterations - k - 1, by omega⟩
  have hzk : 0 + k = k := Nat.zero_add k
  have hbreak : refineLoop evalO genO dt (criteriaFor dt) k (m + 1) doc' s2
      = (doc', s2) := by
    rcases hthrow with he | ⟨hoke, hmf, hgf⟩
    · exact refineLoop_break_evalThrow evalO genO dt (criteriaFor dt) k m doc' s2
        (he doc'.content (criteriaFor dt))
    · exact refineLoop_break_genThrow evalO genO dt (criteriaFor dt) k m doc' s2
        (evs k) (hoke doc'.content (criteriaFor dt)) hmf
        (hgf (improvementPrompt dt (evs k) doc'.content))
  have hloop : refineLoop evalO genO dt (criteriaFor dt) 0 maxIterations d0 s1
      = (doc', s2) := by
    rw [hrun, hzk, hmrem, hbreak]
  refine ⟨applyDocPatch doc' none (some "completed"),
    (updateDocument s2 doc'.id none (some "completed")).2,
    agentMode_compute _ _ _ _ _ _ _ _ _ _ _ _ _ hgen0 hloop hw2 hmem2, rfl, ?_, ?_⟩
  · show doc'.content = _
    rw [hcont2, hcont0, hzk]
  · show refCount (updateDocument s2 doc'.id none (some "completed")).2 doc'.id
      = refCount s doc'.id + k
    rw [refCount_update, hid2, hcnt2, hrc0 d0.id]

/-- Witness for C2: one full revision cycle, then the second evaluation call
throws; the run returns the first revision's content as completed with one
refinement snapshot. -/
theorem agent_refinement_fail_soft_witness :
    ∃ d s', agentModeGenerateDocument (.ok ⟨"prd", "p", true⟩)
        (.ok ⟨some "G", none, "raw"⟩)
        (fun i _ _ => if i = 0 then .ok ⟨4, "fb", false, ["s1"]⟩ else .error ())
        (fun _ _ => .ok "better")
        ⟨1, "n", "idea"⟩ "prd" [] 3 ⟨[], [], [], 0⟩ = (.ok d, s') ∧
      d.status = "completed" ∧
      d.content = (if 1 = 0 then genContentOf ⟨some "G", none, "raw"⟩ else "better") ∧
      refCount s' d.id = refCount ⟨[], [], [], 0⟩ d.id + 1 :=
  agent_refinement_fail_soft ⟨"prd", "p", true⟩ ⟨some "G", none, "raw"⟩
    (fun i _ _ => if i = 0 then .ok ⟨4, "fb", false, ["s1"]⟩ else .error ())
    (fun _ _ => .ok "better")
    (fun _ => ⟨4, "fb", false, ["s1"]⟩) (fun _ => "better")
    ⟨1, "n", "idea"⟩ "prd" [] 1 3 ⟨[], [], [], 0⟩
    (by decide)
    (by refine ⟨List.nodup_nil, ?_, ?_⟩ <;> intro x hx <;> cases hx)
    (by intro ed h; simp at h)
    (by
      intro j hj
      have hj0 : j = 0 := by omega
      subst hj0
      exact ⟨fun c cr => rfl, rfl, fun pr => rfl⟩)
    (Or.inl (fun c cr => rfl))

end DocuGen
